import Mathlib

/-!
Verification of the SEO meta-descriptor generator (`src/core/utils/seo.js`).

The JavaScript module is shallowly embedded: JavaScript values are modelled by
the inductive type `JVal` (strings, arrays, objects, `undefined`), objects by
ordered association lists, and the lodash helpers used by the module
(`_.get`, `_.set`, `_.defaults`, `_.uniqWith`, truthiness, `_.isEmpty`, ...)
by executable Lean functions over that type.  Mutation is made explicit:
`generateMeta` returns both the generated descriptor list and the state of the
caller's `data` object after the call (the source mutates `data` through
`_.defaults(data, seoSchema)`).

The process-wide configuration (`config.seo`) and the execution environment
(`isBrowser()` / `window.location.href`) are external collaborators of the
module; they are passed to the embedding as explicit parameters `cfgSeo` and
`env`.
-/

/-- A JavaScript value as used by the SEO module: `undefined`, a string, an
array, or a plain object whose fields are an ordered association list.
Numbers, booleans and functions do not occur in the module's data flow and
are not modelled. -/
inductive JVal where
  | undefined : JVal
  | str (s : String) : JVal
  | arr (elems : List JVal) : JVal
  | obj (fields : List (String × JVal)) : JVal
deriving Repr

mutual

/-- Structural (deep) equality on `JVal`, the embedding of lodash `_.isEqual`. -/
def JVal.decEq : (a b : JVal) → Decidable (a = b)
  | .undefined, .undefined => isTrue rfl
  | .str s, .str t =>
    match String.decEq s t with
    | isTrue h => isTrue (by rw [h])
    | isFalse h => isFalse (by intro hc; cases hc; exact h rfl)
  | .arr xs, .arr ys =>
    match JVal.decEqList xs ys with
    | isTrue h => isTrue (by rw [h])
    | isFalse h => isFalse (by intro hc; cases hc; exact h rfl)
  | .obj xs, .obj ys =>
    match JVal.decEqObj xs ys with
    | isTrue h => isTrue (by rw [h])
    | isFalse h => isFalse (by intro hc; cases hc; exact h rfl)
  | .undefined, .str _ => isFalse (by intro h; cases h)
  | .undefined, .arr _ => isFalse (by intro h; cases h)
  | .undefined, .obj _ => isFalse (by intro h; cases h)
  | .str _, .undefined => isFalse (by intro h; cases h)
  | .str _, .arr _ => isFalse (by intro h; cases h)
  | .str _, .obj _ => isFalse (by intro h; cases h)
  | .arr _, .undefined => isFalse (by intro h; cases h)
  | .arr _, .str _ => isFalse (by intro h; cases h)
  | .arr _, .obj _ => isFalse (by intro h; cases h)
  | .obj _, .undefined => isFalse (by intro h; cases h)
  | .obj _, .str _ => isFalse (by intro h; cases h)
  | .obj _, .arr _ => isFalse (by intro h; cases h)

/-- Elementwise structural equality on arrays of `JVal`. -/
def JVal.decEqList : (a b : List JVal) → Decidable (a = b)
  | [], [] => isTrue rfl
  | [], _ :: _ => isFalse (by intro h; cases h)
  | _ :: _, [] => isFalse (by intro h; cases h)
  | x :: xs, y :: ys =>
    match JVal.decEq x y, JVal.decEqList xs ys with
    | isTrue h1, isTrue h2 => isTrue (by rw [h1, h2])
    | isFalse h1, _ => isFalse (by intro hc; cases hc; exact h1 rfl)
    | _, isFalse h2 => isFalse (by intro hc; cases hc; exact h2 rfl)

/-- Fieldwise structural equality on object field lists. -/
def JVal.decEqObj : (a b : List (String × JVal)) → Decidable (a = b)
  | [], [] => isTrue rfl
  | [], _ :: _ => isFalse (by intro h; cases h)
  | _ :: _, [] => isFalse (by intro h; cases h)
  | (k1, v1) :: xs, (k2, v2) :: ys =>
    match String.decEq k1 k2, JVal.decEq v1 v2, JVal.decEqObj xs ys with
    | isTrue h0, isTrue h1, isTrue h2 => isTrue (by rw [h0, h1, h2])
    | isFalse h0, _, _ => isFalse (by intro hc; cases hc; exact h0 rfl)
    | _, isFalse h1, _ => isFalse (by intro hc; cases hc; exact h1 rfl)
    | _, _, isFalse h2 => isFalse (by intro hc; cases hc; exact h2 rfl)

end

instance : DecidableEq JVal := JVal.decEq

/-- A JavaScript object: an ordered association list of fields.  A well-formed
JavaScript object never has two fields with the same name. -/
abbrev JObj := List (String × JVal)

/-- Property read `o[k]`: the value of the first field named `k`, or
`undefined` when there is none. -/
def jget : JObj → String → JVal
  | [], _ => .undefined
  | (k0, v) :: rest, k => if k0 = k then v else jget rest k

/-- Key-presence test `k in o` (a field named `k` exists, even if its value is
`undefined`). -/
def jKeyPresent : JObj → String → Bool
  | [], _ => false
  | (k0, _) :: rest, k => if k0 = k then true else jKeyPresent rest k

/-- Property assignment `o[k] = v`: overwrites the field in place when the key
exists, otherwise appends a new field (JavaScript insertion order). -/
def setKey (o : JObj) (k : String) (v : JVal) : JObj :=
  if jKeyPresent o k then o.map (fun kv => if kv.1 = k then (k, v) else kv)
  else o ++ [(k, v)]

/-- lodash `_.defaults(o, defs)`: assign each field of `defs`, in order, onto
`o` whenever `o`'s value at that key is `undefined`.  The source mutates its
first argument; here the mutated object is the return value. -/
def jsDefaults (o defs : JObj) : JObj :=
  defs.foldl (fun acc kv => if jget acc kv.1 = .undefined then setKey acc kv.1 kv.2 else acc) o

/-- Does the string contain a `'.'`?  Used to decide whether lodash treats a
key as a deep path. -/
def containsDot (s : String) : Bool := s.data.contains '.'

/-- Split a character list at every `'.'` (the embedding of lodash
`stringToPath` for plain dotted paths; bracket paths do not occur in this
module's data flow and are not modelled). -/
def splitDotChars : List Char → List (List Char)
  | [] => [[]]
  | c :: rest =>
    if c = '.' then [] :: splitDotChars rest
    else
      match splitDotChars rest with
      | [] => [[c]]
      | h :: t => (c :: h) :: t

/-- Split a string on `'.'` into its path segments. -/
def splitOnDot (s : String) : List String :=
  (splitDotChars s.data).map (fun l => ⟨l⟩)

/-- The nested-path part of lodash `_.set`: walk the path segments, descending
into existing object values and creating fresh empty objects elsewhere
(numeric segments, which would make lodash create arrays, do not occur in this
module's data flow and are not modelled). -/
def jsSetPath (o : JObj) : List String → JVal → JObj
  | [], _ => o
  | [k], v => setKey o k v
  | k :: k2 :: rest, v =>
    let child : JObj := match jget o k with | .obj co => co | _ => []
    setKey o k (.obj (jsSetPath child (k2 :: rest) v))

/-- lodash `_.set(o, key, v)`: a key without a dot, or one that is literally
present on the object, is assigned directly; otherwise the key is split at
dots and assigned as a nested path. -/
def jsSet (o : JObj) (key : String) (v : JVal) : JObj :=
  if !containsDot key || jKeyPresent o key then setKey o key v
  else jsSetPath o (splitOnDot key) v

/-- Walk a path of keys through nested objects, yielding `undefined` as soon
as a non-object is reached. -/
def walkPath : JVal → List String → JVal
  | v, [] => v
  | .obj o, k :: rest => walkPath (jget o k) rest
  | _, _ :: _ => .undefined

/-- lodash `_.get(o, key)`: a key without a dot, or one literally present on
the object, is read directly; otherwise the key is split at dots and walked as
a nested path. -/
def jsGetPath (o : JObj) (key : String) : JVal :=
  if !containsDot key || jKeyPresent o key then jget o key
  else walkPath (.obj o) (splitOnDot key)

/-- JavaScript truthiness of a value (`undefined` and `""` are falsy; arrays
and objects are always truthy). -/
def jsTruthy : JVal → Bool
  | .undefined => false
  | .str s => !s.data.isEmpty
  | .arr _ => true
  | .obj _ => true

/-- Truthiness of `v.length`: true exactly for a non-empty string or a
non-empty array (`.length` of an object or of `undefined` is `undefined`,
which is falsy). -/
def jsLengthB : JVal → Bool
  | .str s => !s.data.isEmpty
  | .arr l => !l.isEmpty
  | _ => false

/-- lodash `_.isEmpty` on the values of this module: `undefined`, the empty
string, the empty array and the empty object are empty. -/
def jsIsEmpty : JVal → Bool
  | .undefined => true
  | .str s => s.data.isEmpty
  | .arr l => l.isEmpty
  | .obj o => o.isEmpty

/-- lodash `_.isObject`: arrays and plain objects are objects, strings and
`undefined` are not. -/
def jsIsObject : JVal → Bool
  | .arr _ => true
  | .obj _ => true
  | _ => false

/-- The string carried by a string value.  The module only ever uses this
coercion on values that are strings on every reachable path; for the
non-string values (whose use would throw or stringify in JavaScript) the
embedding yields `""`. -/
def asStr : JVal → String
  | .str s => s
  | _ => ""

/-- JavaScript `Array.prototype.join(",")` for the string arrays of this
module. -/
def joinComma : List JVal → String
  | [] => ""
  | [v] => asStr v
  | v :: rest => asStr v ++ "," ++ joinComma rest

/-- The `(value, key)` pairs traversed by `_.each` over a value: the fields of
an object, or the elements of an array keyed by their decimal index.  `_.each`
over a string or `undefined` contributes nothing to this module's data flow
and is not modelled. -/
def entriesOf : JVal → List (String × JVal)
  | .obj o => o
  | .arr l => l.enum.map (fun p => (Nat.repr p.1, p.2))
  | _ => []

/-- Drop leading and trailing whitespace from a character list (JavaScript
`String.prototype.trim`). -/
def trimChars (l : List Char) : List Char :=
  ((l.dropWhile Char.isWhitespace).reverse.dropWhile Char.isWhitespace).reverse

/-- JavaScript `String.prototype.lastIndexOf` for a single character: the
index of its last occurrence, or `none` (JavaScript `-1`) when absent. -/
def lastIndexOf (c : Char) : List Char → Option Nat
  | [] => none
  | x :: rest =>
    match lastIndexOf c rest with
    | some i => some (i + 1)
    | none => if x = c then some 0 else none

/-- Drop characters up to and including the first `'>'`; `none` when no `'>'`
remains. -/
def dropThroughGt : List Char → Option (List Char)
  | [] => none
  | c :: rest => if c = '>' then some rest else dropThroughGt rest

/-- One global pass of the tag-stripping regex `/<(?:.|\n)*?>/gm`: each `'<'`
followed (lazily) by a `'>'` is removed together with everything between them;
a `'<'` with no later `'>'` is kept.  The fuel argument, instantiated with the
length of the list, makes the recursion structural; each step consumes at
least one character, so the fuel never runs out. -/
def stripTagsGo : Nat → List Char → List Char
  | 0, l => l
  | _ + 1, [] => []
  | fuel + 1, c :: rest =>
    if c = '<' then
      match dropThroughGt rest with
      | some rest2 => stripTagsGo fuel rest2
      | none => c :: stripTagsGo fuel rest
    else c :: stripTagsGo fuel rest

/-- Remove every `<...>` span from a character list. -/
def stripTags (l : List Char) : List Char := stripTagsGo l.length l

/-- `getTextFromHtml`: strip HTML tags, then trim surrounding whitespace. -/
def getTextFromHtml (s : String) : String := ⟨trimChars (stripTags s.data)⟩

/-- `trimTillLastSentence(str, length)`: strip tags and whitespace; when
`length` is zero or the cleaned string is empty, return the cleaned string;
otherwise append one space, take the first `length + 1` characters, and cut at
the last `'.'` in that window, else at the last `' '`, else hard-cut at
exactly `length` characters.  The two boundary cuts exclude the separator and
trim the result. -/
def trimTillLastSentence (s : String) (length : Nat) : String :=
  let str := (getTextFromHtml s).data
  if length = 0 ∨ str.length = 0 then ⟨str⟩
  else
    let str2 := str ++ [' ']
    let trimmedString := str2.take (length + 1)
    match lastIndexOf '.' trimmedString with
    | some i => ⟨trimChars (trimmedString.take (min (trimmedString.length - 1) i))⟩
    | none =>
      match lastIndexOf ' ' trimmedString with
      | some i => ⟨trimChars (trimmedString.take (min (trimmedString.length - 1) i))⟩
      | none => ⟨str2.take length⟩

/-- The execution-context collaborator: `isBrowser()` and, in a browser,
`window.location.href`. -/
structure Env where
  isBrowser : Bool
  locationHref : String

/-- The `options` argument of `generateMeta`.  The module reads exactly the
two string fields `baseUrl` and `url` (each defaulting to `""`). -/
structure Options where
  baseUrl : String
  url : String

/-- The object literal that `seoSchema` merges the configuration's `seo`
section over. -/
def seoSchemaDefaults : JObj :=
  [("title", .str ""),
   ("description", .str ""),
   ("keywords", .arr []),
   ("image", .str ""),
   ("site_name", .str ""),
   ("twitter", .obj [("site", .str ""), ("creator", .str "")]),
   ("facebook", .obj [("admins", .arr [])]),
   ("type", .str "article"),
   ("type_details", .obj [("section", .str ""), ("published_time", .str ""), ("modified_time", .str "")])]

/-- `seoSchema = _.defaults(_.get(config, "seo", {}), {...})`, parameterised by
the configuration's `seo` object. -/
def seoSchema (cfgSeo : JObj) : JObj := jsDefaults cfgSeo seoSchemaDefaults

/-- The merged SEO data `_.defaults(data, seoSchema)`: the caller's data with
the schema's defaults filled in for keys whose value is `undefined`.  The
source stores this back into `data` itself (lodash `_.defaults` mutates its
first argument), so this is also the state of the caller's `data` object
after a `generateMeta` call. -/
def mergedSeo (cfgSeo : JObj) (data : JObj) : JObj := jsDefaults data (seoSchema cfgSeo)

/-- The standard identifying meta keys, in the priority order of the source. -/
def metaKeys : List String := ["name", "itemProp", "property"]

/-- `getMetaKey(meta)`: the first key of `metaKeys` whose value on `meta` is
truthy; `none` (JavaScript `false`) when there is no such key. -/
def getMetaKey (meta : JObj) : Option String :=
  metaKeys.foldl
    (fun sel key =>
      match sel with
      | some k => some k
      | none => if jsTruthy (jget meta key) then some key else none)
    none

/-- The update step of `addUpdateMeta`: every field of the custom entry is
assigned onto the matched descriptor with `_.set`, in field order. -/
def updateFields (d : JObj) (meta : JObj) : JObj :=
  meta.foldl (fun acc kv => jsSet acc kv.1 kv.2) d

/-- `_.find(source, {[k]: meta[k]})` followed by the in-place update: locate
the first descriptor whose value at `k` equals the entry's, replace it by the
updated descriptor, and leave everything else unchanged; `none` when no
descriptor matches. -/
def findAndUpdate (k : String) (meta : JObj) : List JObj → Option (List JObj)
  | [] => none
  | d :: rest =>
    if jget d k = jget meta k then some (updateFields d meta :: rest)
    else (findAndUpdate k meta rest).map (fun l => d :: l)

/-- One iteration of the `addUpdateMeta` loop: update the first matching
descriptor when the entry has an identifying key that matches, otherwise
append the entry unchanged. -/
def applyMeta (source : List JObj) (meta : JObj) : List JObj :=
  match getMetaKey meta with
  | none => source ++ [meta]
  | some k =>
    match findAndUpdate k meta source with
    | some updated => updated
    | none => source ++ [meta]

/-- `addUpdateMeta(source, customMetas)`: fold the per-entry step over the
custom entries.  The source mutates `source` in place; here the mutated list
is the return value. -/
def addUpdateMeta (source : List JObj) (customMetas : List JObj) : List JObj :=
  customMetas.foldl applyMeta source

/-- lodash `_.uniqWith(l, _.isEqual)`: traverse `l`, keeping a value exactly
when it is not structurally equal to one already kept. -/
def uniqWith (l : List JObj) : List JObj :=
  l.foldl (fun acc x => if x ∈ acc then acc else acc ++ [x]) []

/-- Strip one trailing `'/'` (the `baseUrl.replace(/\/$/, "")` of the source). -/
def stripTrailingSlash (s : String) : String :=
  match s.data.getLast? with
  | some c => if c = '/' then ⟨s.data.dropLast⟩ else s
  | none => s

/-- `_.startsWith(s, p)` on strings. -/
def startsWithS (s p : String) : Bool := p.data.isPrefixOf s.data

/-- The resolved image URL: the image itself when it already starts with
`"http"`, otherwise the base URL with one trailing slash stripped, a `"/"`
unless the image starts with one, and the image. -/
def fullImageUrlOf (optBaseUrl image : String) : String :=
  if startsWithS image "http" then image
  else stripTrailingSlash optBaseUrl ++ (if !startsWithS image "/" then "/" else "") ++ image

/-- The three unconditional title descriptors. -/
def titleBlock (seoData : JObj) : List JObj :=
  [[("name", .str "title"), ("content", jget seoData "title")],
   [("name", .str "twitter:title"), ("content", jget seoData "title")],
   [("property", .str "og:title"), ("content", jget seoData "title")]]

/-- The keywords descriptors: the string form when it is a string non-blank
after trimming, and the comma-joined array form when it is a non-empty array. -/
def keywordsBlock (seoData : JObj) : List JObj :=
  (match jget seoData "keywords" with
   | .str s => if !(trimChars s.data).isEmpty then [[("name", .str "keywords"), ("content", .str s)]] else []
   | _ => []) ++
  (match jget seoData "keywords" with
   | .arr l => if !l.isEmpty then [[("name", .str "keywords"), ("content", .str (joinComma l))]] else []
   | _ => [])

/-- The `twitter:site` descriptor, emitted when `twitter.site` has truthy
length. -/
def twitterSiteBlock (seoData : JObj) : List JObj :=
  let twitterSite := jsGetPath seoData "twitter.site"
  if jsLengthB twitterSite then [[("name", .str "twitter:site"), ("content", twitterSite)]] else []

/-- The `twitter:creator` descriptor, emitted when `twitter.creator` has
truthy length. -/
def twitterCreatorBlock (seoData : JObj) : List JObj :=
  let twitterCreator := jsGetPath seoData "twitter.creator"
  if jsLengthB twitterCreator then [[("name", .str "twitter:creator"), ("content", twitterCreator)]] else []

/-- The `fb:admins` descriptor, emitted when `facebook.admins` is a non-empty
array (a non-array with truthy length would throw at `.join` in JavaScript
and is outside the modelled domain). -/
def fbAdminsBlock (seoData : JObj) : List JObj :=
  match jsGetPath seoData "facebook.admins" with
  | .arr l => if !l.isEmpty then [[("property", .str "fb:admins"), ("content", .str (joinComma l))]] else []
  | _ => []

/-- The three unconditional description descriptors (155- and 200-character
trims and the untouched description). -/
def descBlock (seoData : JObj) : List JObj :=
  [[("name", .str "description"), ("content", .str (trimTillLastSentence (asStr (jget seoData "description")) 155))],
   [("name", .str "twitter:description"), ("content", .str (trimTillLastSentence (asStr (jget seoData "description")) 200))],
   [("property", .str "og:description"), ("content", jget seoData "description")]]

/-- The `og:site_name` descriptor, emitted when `site_name` has truthy length. -/
def siteNameBlock (seoData : JObj) : List JObj :=
  if jsLengthB (jget seoData "site_name") then
    [[("property", .str "og:site_name"), ("content", jget seoData "site_name")]]
  else []

/-- The image descriptors, emitted when `image` has truthy length, all three
carrying the resolved image URL. -/
def imageBlock (seoData : JObj) (optBaseUrl : String) : List JObj :=
  if jsLengthB (jget seoData "image") then
    let fullImageUrl := fullImageUrlOf optBaseUrl (asStr (jget seoData "image"))
    [[("itemProp", .str "image"), ("content", .str fullImageUrl)],
     [("name", .str "twitter:image:src"), ("content", .str fullImageUrl)],
     [("property", .str "og:image"), ("content", .str fullImageUrl)]]
  else []

/-- The `twitter:card` descriptor. -/
def cardBlock (seoData : JObj) : List JObj :=
  [[("name", .str "twitter:card"),
    ("content", .str (if jsLengthB (jget seoData "image") then "summary_large_image" else "summary"))]]

/-- The `og:type` descriptor. -/
def typeBlock (seoData : JObj) : List JObj :=
  [[("property", .str "og:type"), ("content", jget seoData "type")]]

/-- The inner `_.each` of the `type_details` loop: for each non-empty
sub-entry of a mapping-valued entry, emit the `{type}:{key}:{subKey}` /
`twitter:dataN` / `twitter:labelN` triple and advance the shared counter. -/
def typeSubMeta (ty key : String) : List (String × JVal) → Nat → List JObj × Nat
  | [], n => ([], n)
  | (subKey, subValue) :: rest, n =>
    if jsIsEmpty subValue then typeSubMeta ty key rest n
    else
      let tail := typeSubMeta ty key rest (n + 1)
      ([[("property", .str (ty ++ ":" ++ key ++ ":" ++ subKey)), ("content", subValue)],
        [("name", .str ("twitter:data" ++ Nat.repr n)), ("content", subValue)],
        [("name", .str ("twitter:label" ++ Nat.repr n)), ("content", .str subKey)]] ++ tail.1,
       tail.2)

/-- The outer `_.each` of the `type_details` loop: recurse one level into
object-valued entries, emit a triple for each non-empty scalar entry, and
thread the 1-based `twitter:data` counter through the whole traversal. -/
def typeDetailsMeta (ty : String) : List (String × JVal) → Nat → List JObj × Nat
  | [], n => ([], n)
  | (key, value) :: rest, n =>
    if jsIsObject value then
      let sub := typeSubMeta ty key (entriesOf value) n
      let tail := typeDetailsMeta ty rest sub.2
      (sub.1 ++ tail.1, tail.2)
    else if jsIsEmpty value then typeDetailsMeta ty rest n
    else
      let tail := typeDetailsMeta ty rest (n + 1)
      ([[("property", .str (ty ++ ":" ++ key)), ("content", value)],
        [("name", .str ("twitter:data" ++ Nat.repr n)), ("content", value)],
        [("name", .str ("twitter:label" ++ Nat.repr n)), ("content", .str key)]] ++ tail.1,
       tail.2)

/-- The `type_details` descriptors, with the counter starting at 1. -/
def typeDetailsBlock (seoData : JObj) : List JObj :=
  (typeDetailsMeta (asStr (jget seoData "type")) (entriesOf (jget seoData "type_details")) 1).1

/-- The `og:url` descriptor: `seoData.url` when the merged data has a `url`
key, else `options.url`; when the result has falsy length in a browser,
`window.location.href`; emitted exactly when the resolved url is non-blank
after trimming. -/
def urlBlock (seoData : JObj) (options : Options) (env : Env) : List JObj :=
  let url0 := jget seoData "url"
  let url1 := if url0 = .undefined then .str options.url else url0
  let url2 := if !jsLengthB url1 && env.isBrowser then .str env.locationHref else url1
  if !(trimChars (asStr url2).data).isEmpty then
    [[("property", .str "og:url"), ("content", url2)]]
  else []

/-- The descriptor list built by the body of `generateMeta`, in push order,
before the custom metas are applied and before deduplication. -/
def rawMeta (cfgSeo : JObj) (env : Env) (data : JObj) (options : Options) : List JObj :=
  let seoData := mergedSeo cfgSeo data
  titleBlock seoData ++ keywordsBlock seoData ++ twitterSiteBlock seoData ++
  twitterCreatorBlock seoData ++ fbAdminsBlock seoData ++ descBlock seoData ++
  siteNameBlock seoData ++ imageBlock seoData options.baseUrl ++ cardBlock seoData ++
  typeBlock seoData ++ typeDetailsBlock seoData ++ urlBlock seoData options env

/-- The list of custom meta entries carried by a `meta` value, as traversed by
the `_.each` of `addUpdateMeta` (an array's object elements, or an object's
object-valued fields; entries that are not objects do not occur in this
module's intended data flow and are not modelled). -/
def metasOf : JVal → List JObj
  | .arr l => l.filterMap (fun x => match x with | .obj o => some o | _ => none)
  | .obj o => o.filterMap (fun kv => match kv.2 with | .obj oo => some oo | _ => none)
  | _ => []

/-- The config-level custom metas `_.get(config, "seo.meta", [])`, read from
the configuration's `seo` object (which, at the time of the call, has already
been extended with the schema defaults by the module-initialisation
`_.defaults`). -/
def configMetas (cfgSeo : JObj) : List JObj := metasOf (jget (seoSchema cfgSeo) "meta")

/-- The page-level custom metas `_.get(seoData, "meta", [])`. -/
def pageMetas (cfgSeo : JObj) (data : JObj) : List JObj :=
  metasOf (jget (mergedSeo cfgSeo data) "meta")

/-- The full descriptor list right before the final deduplication: the
generated list with the config-level and then the page-level custom metas
applied. -/
def fullMeta (cfgSeo : JObj) (env : Env) (data : JObj) (options : Options) : List JObj :=
  addUpdateMeta (addUpdateMeta (rawMeta cfgSeo env data options) (configMetas cfgSeo))
    (pageMetas cfgSeo data)

/-- `generateMeta(data, options)`: merge the data over the schema, build the
descriptor list, apply the config-level and page-level custom metas, and
deduplicate structurally.  The first component is the returned list; the
second is the caller's `data` object after the call (the source's
`_.defaults(data, seoSchema)` mutates `data` into the merged `seoData`). -/
def generateMeta (cfgSeo : JObj) (env : Env) (data : JObj) (options : Options) : List JObj × JObj :=
  (uniqWith (fullMeta cfgSeo env data options), mergedSeo cfgSeo data)

/-- Does a descriptor carry exactly one of the identifying keys `name`,
`itemProp`, `property` (counting a key as set when its value is not
`undefined`)? -/
def exactlyOneKey (d : JObj) : Bool :=
  (metaKeys.filter (fun k => decide (jget d k ≠ JVal.undefined))).length == 1

/-- A well-formed custom meta entry: a JavaScript object (no duplicate field
names) with exactly one identifying key and no dotted field names. -/
def goodMeta (m : JObj) : Prop :=
  exactlyOneKey m = true ∧ m.all (fun kv => !containsDot kv.1) = true ∧ (m.map Prod.fst).Nodup

instance (m : JObj) : Decidable (goodMeta m) := by
  unfold goodMeta
  infer_instance

/-- The traversal state of `uniqWith`: the values kept so far, then the rest
of the input. -/
def uniqFold (acc : List JObj) (l : List JObj) : List JObj :=
  l.foldl (fun acc x => if x ∈ acc then acc else acc ++ [x]) acc

/-- Modelled from the spec: "Deduplicate the final list by full structural
equality, preserving first occurrence" — keep the head and recursively
deduplicate the tail with all later structural duplicates of the head
removed. -/
def uniqRec : List JObj → List JObj
  | [] => []
  | a :: l => a :: uniqRec (l.filter (fun b => decide (b ≠ a)))
termination_by l => l.length
decreasing_by
  simp only [List.length_cons]
  exact Nat.lt_succ_of_le (List.length_filter_le _ _)

theorem String.length_mk_list (l : List Char) : (⟨l⟩ : String).length = l.length := rfl

theorem trimChars_length_le (l : List Char) : (trimChars l).length ≤ l.length := by
  unfold trimChars
  calc ((l.dropWhile Char.isWhitespace).reverse.dropWhile Char.isWhitespace).reverse.length
      = ((l.dropWhile Char.isWhitespace).reverse.dropWhile Char.isWhitespace).length := by
        exact List.length_reverse _
    _ ≤ (l.dropWhile Char.isWhitespace).reverse.length := (List.dropWhile_sublist _).length_le
    _ = (l.dropWhile Char.isWhitespace).length := List.length_reverse _
    _ ≤ l.length := (List.dropWhile_sublist _).length_le

theorem lastIndexOf_eq_none_iff (c : Char) (l : List Char) :
    lastIndexOf c l = none ↔ c ∉ l := by
  induction l with
  | nil => simp [lastIndexOf]
  | cons x rest ih =>
    simp only [lastIndexOf]
    cases h : lastIndexOf c rest with
    | some i =>
      have hmem : c ∈ rest := by
        by_contra hc
        rw [ih.mpr hc] at h
        cases h
      simp [List.mem_cons, hmem]
    | none =>
      have hrest : c ∉ rest := ih.mp h
      by_cases hx : x = c
      · subst hx
        simp
      · simp [hx, List.mem_cons, hrest]
        exact fun hh => hx hh.symm

/-- C9: for every string and every positive length, the result of
`trimTillLastSentence` has at most `length` characters, on every branch. -/
theorem c9_trim_length_le (s : String) (n : Nat) (h : 0 < n) :
    (trimTillLastSentence s n).length ≤ n := by
  simp only [trimTillLastSentence]
  split
  · next hcond =>
    rcases hcond with h0 | h0
    · omega
    · simp [String.length_mk_list, h0]
  · next hcond =>
    have hts : (((getTextFromHtml s).data ++ [' ']).take (n + 1)).length ≤ n + 1 := by
      simp [List.length_take]
    split
    · next i hi =>
      simp only [String.length_mk_list]
      calc (trimChars ((((getTextFromHtml s).data ++ [' ']).take (n + 1)).take
              (min ((((getTextFromHtml s).data ++ [' ']).take (n + 1)).length - 1) i))).length
          ≤ ((((getTextFromHtml s).data ++ [' ']).take (n + 1)).take
              (min ((((getTextFromHtml s).data ++ [' ']).take (n + 1)).length - 1) i)).length :=
            trimChars_length_le _
        _ ≤ min ((((getTextFromHtml s).data ++ [' ']).take (n + 1)).length - 1) i := by
            simp [List.length_take]
        _ ≤ (((getTextFromHtml s).data ++ [' ']).take (n + 1)).length - 1 := Nat.min_le_left _ _
        _ ≤ n := by omega
    · split
      · next i hi =>
        simp only [String.length_mk_list]
        calc (trimChars ((((getTextFromHtml s).data ++ [' ']).take (n + 1)).take
                (min ((((getTextFromHtml s).data ++ [' ']).take (n + 1)).length - 1) i))).length
            ≤ ((((getTextFromHtml s).data ++ [' ']).take (n + 1)).take
                (min ((((getTextFromHtml s).data ++ [' ']).take (n + 1)).length - 1) i)).length :=
              trimChars_length_le _
          _ ≤ min ((((getTextFromHtml s).data ++ [' ']).take (n + 1)).length - 1) i := by
              simp [List.length_take]
          _ ≤ (((getTextFromHtml s).data ++ [' ']).take (n + 1)).length - 1 := Nat.min_le_left _ _
          _ ≤ n := by omega
      · simp only [String.length_mk_list]
        simp [List.length_take]

/-- C9 witness. -/
theorem c9_trim_length_le_witness :
    0 < 5 ∧ (trimTillLastSentence "Tirth Bodawala" 5).length ≤ 5 :=
  ⟨by decide, c9_trim_length_le "Tirth Bodawala" 5 (by decide)⟩

/-- C4: `trimTillLastSentence` prefers the last `'.'` in the
`length + 1`-character window over the appended-space string, then the last
space, and otherwise hard-cuts at exactly `length` characters:
`trimTillLastSentence "Tirth Bodawala." 14 = "Tirth Bodawala"`,
`trimTillLastSentence "Tirth Bodawala" 5 = "Tirth"`, and a cleaned string
with neither `'.'` nor space in the window yields exactly its first `length`
characters. -/
theorem c4_trimTillLastSentence :
    trimTillLastSentence "Tirth Bodawala." 14 = "Tirth Bodawala" ∧
    trimTillLastSentence "Tirth Bodawala" 5 = "Tirth" ∧
    ∀ (s : String) (n : Nat), 0 < n →
      (∀ c ∈ ((getTextFromHtml s).data ++ [' ']).take (n + 1), c ≠ '.' ∧ c ≠ ' ') →
      trimTillLastSentence s n = ⟨(getTextFromHtml s).data.take n⟩ := by
  refine ⟨by decide, by decide, ?_⟩
  intro s n hn hw
  have hdot : lastIndexOf '.' (((getTextFromHtml s).data ++ [' ']).take (n + 1)) = none :=
    (lastIndexOf_eq_none_iff _ _).mpr (fun hmem => (hw _ hmem).1 rfl)
  have hsp : lastIndexOf ' ' (((getTextFromHtml s).data ++ [' ']).take (n + 1)) = none :=
    (lastIndexOf_eq_none_iff _ _).mpr (fun hmem => (hw _ hmem).2 rfl)
  have hlen : n < (getTextFromHtml s).data.length := by
    by_contra hc
    push_neg at hc
    have h1 : ((getTextFromHtml s).data ++ [' ']).length ≤ n + 1 := by
      rw [List.length_append, List.length_singleton]
      omega
    have h3 : (' ' : Char) ∈ ((getTextFromHtml s).data ++ [' ']).take (n + 1) := by
      rw [List.take_of_length_le h1]
      simp
    exact (hw _ h3).2 rfl
  have hcond : ¬(n = 0 ∨ ((getTextFromHtml s).data).length = 0) := by omega
  simp only [trimTillLastSentence, if_neg hcond, hdot, hsp]
  have htake : ((getTextFromHtml s).data ++ [' ']).take n = (getTextFromHtml s).data.take n :=
    List.take_append_of_le_length (by omega)
  rw [htake]

/-- C4 witness. -/
theorem c4_trimTillLastSentence_witness :
    0 < 5 ∧ (∀ c ∈ ((getTextFromHtml "abcdefghij").data ++ [' ']).take 6, c ≠ '.' ∧ c ≠ ' ') ∧
    trimTillLastSentence "abcdefghij" 5 = "abcde" :=
  ⟨by decide, by decide,
    (c4_trimTillLastSentence.2.2 "abcdefghij" 5 (by decide) (by decide)).trans (by decide)⟩

theorem addUpdateMeta_singleton (s : List JObj) (m : JObj) :
    addUpdateMeta s [m] = applyMeta s m := rfl

theorem findAndUpdate_eq_none (k : String) (m : JObj) (s : List JObj)
    (h : ∀ d ∈ s, jget d k ≠ jget m k) : findAndUpdate k m s = none := by
  induction s with
  | nil => rfl
  | cons d rest ih =>
    simp only [findAndUpdate]
    rw [if_neg (h d (List.mem_cons_self _ _)), ih (fun e he => h e (List.mem_cons_of_mem _ he))]
    rfl

theorem findAndUpdate_spec (k : String) (m : JObj) (pre post : List JObj) (d : JObj)
    (hpre : ∀ e ∈ pre, jget e k ≠ jget m k) (hd : jget d k = jget m k) :
    findAndUpdate k m (pre ++ d :: post) = some (pre ++ updateFields d m :: post) := by
  induction pre with
  | nil => simp [findAndUpdate, hd]
  | cons e rest ih =>
    have h1 : jget e k ≠ jget m k := hpre e (List.mem_cons_self _ _)
    have h2 := ih (fun x hx => hpre x (List.mem_cons_of_mem _ hx))
    simp only [List.cons_append, findAndUpdate, List.append_eq]
    rw [if_neg h1, h2]
    rfl

theorem exists_match_decomp (k : String) (m : JObj) (s : List JObj)
    (h : ∃ d ∈ s, jget d k = jget m k) :
    ∃ pre d post, s = pre ++ d :: post ∧ (∀ e ∈ pre, jget e k ≠ jget m k) ∧
      jget d k = jget m k := by
  induction s with
  | nil => simp at h
  | cons d0 rest ih =>
    by_cases hd0 : jget d0 k = jget m k
    · exact ⟨[], d0, rest, rfl, by simp, hd0⟩
    · have hrest : ∃ d ∈ rest, jget d k = jget m k := by
        rcases h with ⟨d, hd, hmatch⟩
        rcases List.mem_cons.mp hd with heq | hmem
        · exact absurd (heq ▸ hmatch) hd0
        · exact ⟨d, hmem, hmatch⟩
      rcases ih hrest with ⟨pre, d, post, hs, hpre, hmatch⟩
      refine ⟨d0 :: pre, d, post, by rw [hs, List.cons_append], ?_, hmatch⟩
      intro e he
      rcases List.mem_cons.mp he with heq | hmem
      · exact heq ▸ hd0
      · exact hpre e hmem

/-- C5: `addUpdateMeta` picks the identifying key as the first truthy one
among `name`, `itemProp`, `property`; a matching descriptor receives every
field of the entry in place (dotted paths as nested paths, witnessed by the
`updateFields` equation), and an entry with no identifying key or no match is
appended unchanged; with the two concrete examples of the spec. -/
theorem c5_addUpdateMeta :
    (∀ m : JObj, getMetaKey m =
      (if jsTruthy (jget m "name") then some "name"
       else if jsTruthy (jget m "itemProp") then some "itemProp"
       else if jsTruthy (jget m "property") then some "property" else none)) ∧
    (∀ (s : List JObj) (m : JObj), getMetaKey m = none → addUpdateMeta s [m] = s ++ [m]) ∧
    (∀ (s : List JObj) (m : JObj) (k : String), getMetaKey m = some k →
      (∀ d ∈ s, jget d k ≠ jget m k) → addUpdateMeta s [m] = s ++ [m]) ∧
    (∀ (s : List JObj) (m : JObj) (k : String), getMetaKey m = some k →
      (∃ d ∈ s, jget d k = jget m k) →
      ∃ pre d post, s = pre ++ d :: post ∧ (∀ e ∈ pre, jget e k ≠ jget m k) ∧
        jget d k = jget m k ∧ addUpdateMeta s [m] = pre ++ updateFields d m :: post) ∧
    updateFields [("name", .str "t")] [("a.b", .str "z")] =
      [("name", .str "t"), ("a", .obj [("b", .str "z")])] ∧
    addUpdateMeta [[("name", .str "title"), ("content", .str "A")]]
        [[("name", .str "title"), ("content", .str "B")]] =
      [[("name", .str "title"), ("content", .str "B")]] ∧
    addUpdateMeta [] [[("custom", .str "x")]] = [[("custom", .str "x")]] := by
  refine ⟨?_, ?_, ?_, ?_, by decide, by decide, by decide⟩
  · intro m
    simp only [getMetaKey, metaKeys, List.foldl]
    cases h1 : jsTruthy (jget m "name") <;> cases h2 : jsTruthy (jget m "itemProp") <;>
      cases h3 : jsTruthy (jget m "property") <;> simp [h1, h2, h3]
  · intro s m h
    rw [addUpdateMeta_singleton]
    simp [applyMeta, h]
  · intro s m k hk h
    rw [addUpdateMeta_singleton]
    simp [applyMeta, hk, findAndUpdate_eq_none k m s h]
  · intro s m k hk h
    rcases exists_match_decomp k m s h with ⟨pre, d, post, hs, hpre, hmatch⟩
    refine ⟨pre, d, post, hs, hpre, hmatch, ?_⟩
    rw [addUpdateMeta_singleton, hs]
    simp [applyMeta, hk, findAndUpdate_spec k m pre post d hpre hmatch]

/-- C5 witness. -/
theorem c5_addUpdateMeta_witness :
    getMetaKey [("name", JVal.str "v"), ("content", JVal.str "2")] = some "name" ∧
    addUpdateMeta [[("property", JVal.str "og:x"), ("content", JVal.str "1")]]
        [[("name", JVal.str "v"), ("content", JVal.str "2")]] =
      [[("property", JVal.str "og:x"), ("content", JVal.str "1")],
       [("name", JVal.str "v"), ("content", JVal.str "2")]] ∧
    (∃ pre d post,
      ([[("name", JVal.str "t"), ("content", JVal.str "A")]] : List JObj) = pre ++ d :: post ∧
      (∀ e ∈ pre, jget e "name" ≠ jget [("name", JVal.str "t"), ("content", JVal.str "B")] "name") ∧
      jget d "name" = jget [("name", JVal.str "t"), ("content", JVal.str "B")] "name" ∧
      addUpdateMeta [[("name", JVal.str "t"), ("content", JVal.str "A")]]
          [[("name", JVal.str "t"), ("content", JVal.str "B")]] =
        pre ++ updateFields d [("name", JVal.str "t"), ("content", JVal.str "B")] :: post) :=
  ⟨by decide,
   c5_addUpdateMeta.2.2.1 _ _ "name" (by decide) (by decide),
   c5_addUpdateMeta.2.2.2.1 _ _ "name" (by decide) (by decide)⟩

/-- C10: when several descriptors match the custom entry's identifying key,
`addUpdateMeta` updates only the first one in list order; everything before
and after it — including later matches — is returned unchanged, and the entry
is not appended. -/
theorem c10_addUpdateMeta_first_match (pre post : List JObj) (d m : JObj) (k : String)
    (hk : getMetaKey m = some k) (hpre : ∀ e ∈ pre, jget e k ≠ jget m k)
    (hd : jget d k = jget m k) :
    addUpdateMeta (pre ++ d :: post) [m] = pre ++ updateFields d m :: post := by
  rw [addUpdateMeta_singleton]
  simp [applyMeta, hk, findAndUpdate_spec k m pre post d hpre hd]

/-- C10 witness: the second matching descriptor is left unchanged. -/
theorem c10_addUpdateMeta_first_match_witness :
    addUpdateMeta
        [[("name", JVal.str "t"), ("content", JVal.str "A")],
         [("name", JVal.str "t"), ("content", JVal.str "C")]]
        [[("name", JVal.str "t"), ("content", JVal.str "B")]] =
      [[("name", JVal.str "t"), ("content", JVal.str "B")],
       [("name", JVal.str "t"), ("content", JVal.str "C")]] :=
  (c10_addUpdateMeta_first_match [] [[("name", JVal.str "t"), ("content", JVal.str "C")]]
      [("name", JVal.str "t"), ("content", JVal.str "A")]
      [("name", JVal.str "t"), ("content", JVal.str "B")] "name"
      (by decide) (by decide) (by decide)).trans (by decide)

theorem uniqWith_eq_uniqFold (l : List JObj) : uniqWith l = uniqFold [] l := rfl

theorem uniqFold_cons (acc : List JObj) (x : JObj) (l : List JObj) :
    uniqFold acc (x :: l) = if x ∈ acc then uniqFold acc l else uniqFold (acc ++ [x]) l := by
  by_cases h : x ∈ acc <;> simp [uniqFold, h]

theorem mem_uniqFold (y : JObj) (l : List JObj) : ∀ acc, y ∈ uniqFold acc l ↔ y ∈ acc ∨ y ∈ l := by
  induction l with
  | nil => intro acc; simp [uniqFold]
  | cons x rest ih =>
    intro acc
    rw [uniqFold_cons]
    by_cases h : x ∈ acc
    · rw [if_pos h, ih]
      constructor
      · rintro (ha | hr)
        · exact Or.inl ha
        · exact Or.inr (List.mem_cons_of_mem _ hr)
      · rintro (ha | hxr)
        · exact Or.inl ha
        · rcases List.mem_cons.mp hxr with he | hr
          · exact Or.inl (he ▸ h)
          · exact Or.inr hr
    · rw [if_neg h, ih]
      simp only [List.mem_append, List.mem_singleton, List.mem_cons]
      tauto

theorem pairwise_uniqFold (l : List JObj) :
    ∀ acc, acc.Pairwise (fun a b => a ≠ b) → (uniqFold acc l).Pairwise (fun a b => a ≠ b) := by
  induction l with
  | nil => intro acc h; simpa [uniqFold] using h
  | cons x rest ih =>
    intro acc h
    rw [uniqFold_cons]
    by_cases hx : x ∈ acc
    · rw [if_pos hx]
      exact ih _ h
    · rw [if_neg hx]
      refine ih _ ?_
      rw [List.pairwise_append]
      refine ⟨h, List.pairwise_singleton _ _, ?_⟩
      intro a ha b hb
      rw [List.mem_singleton] at hb
      subst hb
      intro he
      exact hx (he ▸ ha)

theorem uniqFold_append_sublist (l : List JObj) :
    ∀ acc, ∃ r, uniqFold acc l = acc ++ r ∧ r.Sublist l := by
  induction l with
  | nil => exact fun acc => ⟨[], by simp [uniqFold], List.nil_sublist _⟩
  | cons x rest ih =>
    intro acc
    rw [uniqFold_cons]
    by_cases hx : x ∈ acc
    · rw [if_pos hx]
      rcases ih acc with ⟨r, h1, h2⟩
      exact ⟨r, h1, h2.cons _⟩
    · rw [if_neg hx]
      rcases ih (acc ++ [x]) with ⟨r, h1, h2⟩
      refine ⟨x :: r, ?_, h2.cons₂ _⟩
      rw [h1, List.append_assoc, List.singleton_append]

theorem uniqFold_eq_uniqRec (l : List JObj) :
    ∀ acc, uniqFold acc l = acc ++ uniqRec (l.filter (fun b => decide (b ∉ acc))) := by
  induction l with
  | nil => intro acc; simp [uniqFold, uniqRec]
  | cons x rest ih =>
    intro acc
    rw [uniqFold_cons]
    by_cases hx : x ∈ acc
    · rw [if_pos hx, ih]
      have : (x :: rest).filter (fun b => decide (b ∉ acc)) =
          rest.filter (fun b => decide (b ∉ acc)) := by
        simp [List.filter_cons, hx]
      rw [this]
    · rw [if_neg hx, ih]
      have hfx : (x :: rest).filter (fun b => decide (b ∉ acc)) =
          x :: rest.filter (fun b => decide (b ∉ acc)) := by
        simp [List.filter_cons, hx]
      rw [hfx, uniqRec, List.filter_filter]
      have hpt : rest.filter (fun b => decide (b ∉ acc ++ [x])) =
          rest.filter (fun b => decide (b ≠ x) && decide (b ∉ acc)) := by
        refine List.filter_congr ?_
        intro b _
        by_cases h1 : b ∈ acc <;> by_cases h2 : b = x <;> simp [h1, h2]
      rw [hpt, List.append_assoc, List.singleton_append]

theorem uniqWith_eq_uniqRec (l : List JObj) : uniqWith l = uniqRec l := by
  rw [uniqWith_eq_uniqFold, uniqFold_eq_uniqRec]
  simp

/-- C6: the list returned by `generateMeta` is the first-occurrence
deduplication of the full generated list: it equals the specified
first-occurrence dedup, contains no two structurally equal descriptors,
is an order-preserving sublist of the pre-dedup list, and retains every
descriptor that occurs in the pre-dedup list. -/
theorem c6_generateMeta_dedup (cfgSeo : JObj) (env : Env) (data : JObj) (options : Options) :
    (generateMeta cfgSeo env data options).1 = uniqRec (fullMeta cfgSeo env data options) ∧
    (generateMeta cfgSeo env data options).1.Pairwise (fun a b => a ≠ b) ∧
    (generateMeta cfgSeo env data options).1.Sublist (fullMeta cfgSeo env data options) ∧
    ∀ x ∈ fullMeta cfgSeo env data options, x ∈ (generateMeta cfgSeo env data options).1 := by
  have h1 : (generateMeta cfgSeo env data options).1 = uniqWith (fullMeta cfgSeo env data options) := by
    simp only [generateMeta]
  refine ⟨by rw [h1, uniqWith_eq_uniqRec], ?_, ?_, ?_⟩
  · rw [h1, uniqWith_eq_uniqFold]
    exact pairwise_uniqFold _ _ List.Pairwise.nil
  · rw [h1, uniqWith_eq_uniqFold]
    rcases uniqFold_append_sublist (fullMeta cfgSeo env data options) [] with ⟨r, he, hs⟩
    rw [he]
    simpa using hs
  · intro x hx
    rw [h1, uniqWith_eq_uniqFold]
    exact (mem_uniqFold _ _ _).mpr (Or.inr hx)

/-- C6 witness: a duplicated custom meta entry occurs in the pre-dedup list
and is retained (once) in the result. -/
theorem c6_generateMeta_dedup_witness :
    [("custom", JVal.str "x")] ∈
      fullMeta [] ⟨false, ""⟩ [("meta", JVal.arr [JVal.obj [("custom", JVal.str "x")],
        JVal.obj [("custom", JVal.str "x")]])] ⟨"", ""⟩ ∧
    [("custom", JVal.str "x")] ∈
      (generateMeta [] ⟨false, ""⟩ [("meta", JVal.arr [JVal.obj [("custom", JVal.str "x")],
        JVal.obj [("custom", JVal.str "x")]])] ⟨"", ""⟩).1 :=
  ⟨by decide,
   (c6_generateMeta_dedup [] ⟨false, ""⟩ [("meta", JVal.arr [JVal.obj [("custom", JVal.str "x")],
      JVal.obj [("custom", JVal.str "x")]])] ⟨"", ""⟩).2.2.2 _ (by decide)⟩

theorem jKeyPresent_eq_false_iff (o : JObj) (k : String) :
    jKeyPresent o k = false ↔ k ∉ o.map Prod.fst := by
  induction o with
  | nil => simp [jKeyPresent]
  | cons kv rest ih =>
    obtain ⟨k0, v0⟩ := kv
    by_cases h : k0 = k
    · subst h
      simp [jKeyPresent]
    · simp only [jKeyPresent, if_neg h, List.map_cons, List.mem_cons, ih]
      constructor
      · rintro hrest (he | hm)
        · exact h he.symm
        · exact hrest hm
      · intro hh
        exact fun hm => hh (Or.inr hm)

theorem jget_eq_undef_of_not_mem (o : JObj) (k : String) (h : k ∉ o.map Prod.fst) :
    jget o k = .undefined := by
  induction o with
  | nil => rfl
  | cons kv rest ih =>
    obtain ⟨k0, v0⟩ := kv
    simp only [List.map_cons, List.mem_cons] at h
    push_neg at h
    have hne : ¬(k0 = k) := fun he => h.1 he.symm
    simp only [jget, if_neg hne]
    exact ih h.2

theorem jget_mapSet_same (o : JObj) (k : String) (v : JVal) :
    jget (o.map (fun kv => if kv.1 = k then (k, v) else kv)) k =
      if jKeyPresent o k then v else .undefined := by
  induction o with
  | nil => simp [jget, jKeyPresent]
  | cons kv rest ih =>
    obtain ⟨k0, v0⟩ := kv
    by_cases h : k0 = k
    · subst h
      simp only [List.map_cons]
      simp [jget, jKeyPresent, ih]
    · simp only [List.map_cons, if_neg h]
      simp [jget, jKeyPresent, h, ih]

theorem jget_mapSet_other (o : JObj) (k p : String) (v : JVal) (hkp : k ≠ p) :
    jget (o.map (fun kv => if kv.1 = k then (k, v) else kv)) p = jget o p := by
  induction o with
  | nil => simp [jget]
  | cons kv rest ih =>
    obtain ⟨k0, v0⟩ := kv
    by_cases h : k0 = k
    · subst h
      simp only [List.map_cons]
      simp [jget, hkp, ih]
    · simp only [List.map_cons, if_neg h]
      simp [jget, h, ih]

theorem jget_append_single (o : JObj) (k p : String) (v : JVal) :
    jget (o ++ [(k, v)]) p =
      if jKeyPresent o p then jget o p else (if k = p then v else .undefined) := by
  induction o with
  | nil => simp [jget, jKeyPresent]
  | cons kv rest ih =>
    obtain ⟨k0, v0⟩ := kv
    simp only [List.cons_append]
    by_cases h : k0 = p
    · subst h
      simp [jget, jKeyPresent]
    · simp [jget, jKeyPresent, h, ih]

theorem jget_setKey_same (o : JObj) (k : String) (v : JVal) : jget (setKey o k v) k = v := by
  rw [setKey]
  by_cases hp : jKeyPresent o k
  · rw [if_pos hp, jget_mapSet_same, if_pos hp]
  · rw [if_neg hp, jget_append_single, if_neg hp, if_pos rfl]

theorem jget_setKey_other (o : JObj) (k p : String) (v : JVal) (hkp : k ≠ p) :
    jget (setKey o k v) p = jget o p := by
  rw [setKey]
  by_cases hp : jKeyPresent o k
  · rw [if_pos hp, jget_mapSet_other _ _ _ _ hkp]
  · rw [if_neg hp, jget_append_single]
    by_cases hq : jKeyPresent o p
    · rw [if_pos hq]
    · rw [if_neg hq, if_neg hkp]
      exact (jget_eq_undef_of_not_mem o p ((jKeyPresent_eq_false_iff o p).mp
        (by simpa using hq))).symm

theorem map_fst_setKey_present (o : JObj) (k : String) (v : JVal)
    (hp : jKeyPresent o k = true) : (setKey o k v).map Prod.fst = o.map Prod.fst := by
  rw [setKey, if_pos hp, List.map_map]
  refine List.map_congr_left ?_
  intro kv _
  by_cases h : kv.1 = k
  · simp [h, Function.comp]
  · simp [h, Function.comp]

theorem map_fst_setKey_absent (o : JObj) (k : String) (v : JVal)
    (hp : jKeyPresent o k = false) : (setKey o k v).map Prod.fst = o.map Prod.fst ++ [k] := by
  rw [setKey, if_neg (by simp [hp])]
  simp

theorem nodup_keys_setKey (o : JObj) (k : String) (v : JVal)
    (h : (o.map Prod.fst).Nodup) : ((setKey o k v).map Prod.fst).Nodup := by
  by_cases hp : jKeyPresent o k
  · rw [map_fst_setKey_present _ _ _ hp]
    exact h
  · rw [map_fst_setKey_absent _ _ _ (by simpa using hp)]
    refine List.nodup_append.mpr ⟨h, List.nodup_singleton _, ?_⟩
    intro a ha hb
    rw [List.mem_singleton] at hb
    rw [hb] at ha
    exact ((jKeyPresent_eq_false_iff o k).mp (by simpa using hp)) ha

theorem nodup_keys_jsDefaults (defs : JObj) : ∀ o : JObj, (o.map Prod.fst).Nodup →
    ((jsDefaults o defs).map Prod.fst).Nodup := by
  induction defs with
  | nil => exact fun o h => h
  | cons kv rest ih =>
    intro o h
    have hstep : jsDefaults o (kv :: rest) =
        jsDefaults (if jget o kv.1 = .undefined then setKey o kv.1 kv.2 else o) rest := by
      simp only [jsDefaults, List.foldl_cons]
    rw [hstep]
    apply ih
    by_cases hu : jget o kv.1 = JVal.undefined
    · rw [if_pos hu]
      exact nodup_keys_setKey _ _ _ h
    · rw [if_neg hu]
      exact h

theorem jget_jsDefaults (defs : JObj) : ∀ (o : JObj) (k : String), (defs.map Prod.fst).Nodup →
    jget (jsDefaults o defs) k = if jget o k = .undefined then jget defs k else jget o k := by
  induction defs with
  | nil =>
    intro o k _
    by_cases h : jget o k = JVal.undefined <;> simp [jsDefaults, jget, h]
  | cons kv rest ih =>
    intro o k hnd
    obtain ⟨k0, v0⟩ := kv
    rw [List.map_cons, List.nodup_cons] at hnd
    have hstep : jsDefaults o ((k0, v0) :: rest) =
        jsDefaults (if jget o k0 = .undefined then setKey o k0 v0 else o) rest := by
      simp only [jsDefaults, List.foldl_cons]
    rw [hstep]
    by_cases h0 : jget o k0 = JVal.undefined
    · rw [if_pos h0, ih _ k hnd.2]
      by_cases hkk : k0 = k
      · subst hkk
        rw [jget_setKey_same]
        by_cases hv : v0 = JVal.undefined
        · subst hv
          rw [if_pos rfl, if_pos h0]
          simp only [jget, if_pos rfl]
          exact jget_eq_undef_of_not_mem rest k0 hnd.1
        · rw [if_neg hv, if_pos h0]
          simp [jget]
      · rw [jget_setKey_other _ _ _ _ hkk]
        have hc : jget ((k0, v0) :: rest) k = jget rest k := by simp [jget, hkk]
        rw [hc]
    · rw [if_neg h0, ih _ k hnd.2]
      by_cases hkk : k0 = k
      · subst hkk
        rw [if_neg h0, if_neg h0]
      · have hc : jget ((k0, v0) :: rest) k = jget rest k := by simp [jget, hkk]
        rw [hc]

/-- C3 counterexample: calling `generateMeta` with an empty `data` object does
not leave `data` unchanged — `_.defaults(data, seoSchema)` assigns the
schema's keys onto the caller's object. -/
theorem c3_counterexample : (generateMeta [] ⟨false, ""⟩ [] ⟨"", ""⟩).2 ≠ [] := by decide

/-- C3 (amended): `generateMeta` mutates its `data` argument into the
schema-merged object — keys whose value on `data` is not `undefined` keep
their values, and all other keys receive the schema's value; the returned
descriptor list itself is freshly constructed. -/
theorem c3_data_mutation (cfgSeo : JObj) (env : Env) (data : JObj) (options : Options)
    (hnd : (cfgSeo.map Prod.fst).Nodup) (k : String) :
    jget (generateMeta cfgSeo env data options).2 k =
      if jget data k = .undefined then jget (seoSchema cfgSeo) k else jget data k := by
  have h2 : (generateMeta cfgSeo env data options).2 = mergedSeo cfgSeo data := by
    simp only [generateMeta]
  rw [h2, mergedSeo]
  rw [jget_jsDefaults (seoSchema cfgSeo) data k (nodup_keys_jsDefaults seoSchemaDefaults cfgSeo hnd)]

/-- C3 witness. -/
theorem c3_data_mutation_witness :
    (([] : JObj).map Prod.fst).Nodup ∧
    jget (generateMeta [] ⟨false, ""⟩ [("title", JVal.str "T")] ⟨"", ""⟩).2 "type" =
      (if jget [("title", JVal.str "T")] "type" = .undefined then jget (seoSchema []) "type"
       else jget [("title", JVal.str "T")] "type") :=
  ⟨by decide, c3_data_mutation [] ⟨false, ""⟩ [("title", JVal.str "T")] ⟨"", ""⟩ (by decide) "type"⟩

theorem isEmpty_eq_false_of_ne_nil {l : List Char} (h : l ≠ []) : l.isEmpty = false := by
  cases l with
  | nil => exact absurd rfl h
  | cons c rest => rfl

theorem ne_nil_of_trimChars_ne_nil {l : List Char} (h : trimChars l ≠ []) : l ≠ [] := by
  intro hl
  rw [hl] at h
  exact h rfl

theorem addUpdateMeta_nil (s : List JObj) : addUpdateMeta s [] = s := rfl

theorem mem_generateMeta_of_mem_raw (cfgSeo : JObj) (env : Env) (data : JObj)
    (options : Options) (x : JObj) (hcfg : configMetas cfgSeo = [])
    (hpage : pageMetas cfgSeo data = []) (hx : x ∈ rawMeta cfgSeo env data options) :
    x ∈ (generateMeta cfgSeo env data options).1 := by
  have h1 : (generateMeta cfgSeo env data options).1 =
      uniqWith (rawMeta cfgSeo env data options) := by
    simp only [generateMeta, fullMeta, hcfg, hpage, addUpdateMeta_nil]
  rw [h1, uniqWith_eq_uniqFold]
  exact (mem_uniqFold _ _ _).mpr (Or.inr hx)

theorem mem_rawMeta_of_mem_urlBlock (cfgSeo : JObj) (env : Env) (data : JObj)
    (options : Options) (x : JObj)
    (hx : x ∈ urlBlock (mergedSeo cfgSeo data) options env) :
    x ∈ rawMeta cfgSeo env data options := by
  simp only [rawMeta]
  exact List.mem_append_right _ hx

theorem mem_rawMeta_of_mem_imageBlock (cfgSeo : JObj) (env : Env) (data : JObj)
    (options : Options) (x : JObj)
    (hx : x ∈ imageBlock (mergedSeo cfgSeo data) options.baseUrl) :
    x ∈ rawMeta cfgSeo env data options := by
  simp only [rawMeta]
  exact List.mem_append_left _ (List.mem_append_left _ (List.mem_append_left _
    (List.mem_append_left _ (List.mem_append_right _ hx))))

/-- C2 counterexample: with `seoData.url` present but equal to the empty
string and a non-empty `options.url`, no `og:url` descriptor is emitted at
all — `_.get(seoData, "url", options.url)` falls back to `options.url` only
when the key is absent, not when it is empty. -/
theorem c2_counterexample :
    [("property", JVal.str "og:url"), ("content", JVal.str "http://a.com")] ∉
      (generateMeta [] ⟨false, ""⟩ [("url", JVal.str "")] ⟨"", "http://a.com"⟩).1 := by decide

/-- C2 (amended): the page URL is `seoData.url` whenever the merged data has
a `url` key (even when its value is empty), and `options.url` only when the
key is absent; a url with falsy length falls back to the current address in a
browser; `og:url` is emitted with the resolved url when it is non-blank after
trimming (stated for calls without custom metas, which could rewrite the
list afterwards). -/
theorem c2_og_url (cfgSeo : JObj) (env : Env) (data : JObj) (options : Options)
    (hcfg : configMetas cfgSeo = []) (hpage : pageMetas cfgSeo data = []) :
    (∀ u : String, jget (mergedSeo cfgSeo data) "url" = JVal.str u →
      trimChars u.data ≠ [] →
      [("property", JVal.str "og:url"), ("content", JVal.str u)] ∈
        (generateMeta cfgSeo env data options).1) ∧
    (jget (mergedSeo cfgSeo data) "url" = JVal.undefined →
      trimChars options.url.data ≠ [] →
      [("property", JVal.str "og:url"), ("content", JVal.str options.url)] ∈
        (generateMeta cfgSeo env data options).1) ∧
    (jget (mergedSeo cfgSeo data) "url" = JVal.str "" → env.isBrowser = true →
      trimChars env.locationHref.data ≠ [] →
      [("property", JVal.str "og:url"), ("content", JVal.str env.locationHref)] ∈
        (generateMeta cfgSeo env data options).1) := by
  refine ⟨?_, ?_, ?_⟩
  · intro u hurl htrim
    refine mem_generateMeta_of_mem_raw _ _ _ _ _ hcfg hpage
      (mem_rawMeta_of_mem_urlBlock _ _ _ _ _ ?_)
    have h1 := isEmpty_eq_false_of_ne_nil htrim
    have h2 := isEmpty_eq_false_of_ne_nil (ne_nil_of_trimChars_ne_nil htrim)
    simp [urlBlock, hurl, asStr, jsLengthB, h1, h2]
  · intro hurl htrim
    refine mem_generateMeta_of_mem_raw _ _ _ _ _ hcfg hpage
      (mem_rawMeta_of_mem_urlBlock _ _ _ _ _ ?_)
    have h1 := isEmpty_eq_false_of_ne_nil htrim
    have h2 := isEmpty_eq_false_of_ne_nil (ne_nil_of_trimChars_ne_nil htrim)
    simp [urlBlock, hurl, asStr, jsLengthB, h1, h2]
  · intro hurl hbrowser htrim
    refine mem_generateMeta_of_mem_raw _ _ _ _ _ hcfg hpage
      (mem_rawMeta_of_mem_urlBlock _ _ _ _ _ ?_)
    have h1 := isEmpty_eq_false_of_ne_nil htrim
    simp [urlBlock, hurl, hbrowser, asStr, jsLengthB, h1]

/-- C2 witness. -/
theorem c2_og_url_witness :
    configMetas [] = [] ∧ pageMetas [] [("url", JVal.str "http://site.com/p")] = [] ∧
    jget (mergedSeo [] [("url", JVal.str "http://site.com/p")]) "url" =
      JVal.str "http://site.com/p" ∧
    trimChars ("http://site.com/p" : String).data ≠ [] ∧
    [("property", JVal.str "og:url"), ("content", JVal.str "http://site.com/p")] ∈
      (generateMeta [] ⟨false, ""⟩ [("url", JVal.str "http://site.com/p")] ⟨"", ""⟩).1 :=
  ⟨by decide, by decide, by decide, by decide,
   (c2_og_url [] ⟨false, ""⟩ [("url", JVal.str "http://site.com/p")] ⟨"", ""⟩
      (by decide) (by decide)).1 "http://site.com/p" (by decide) (by decide)⟩

theorem data_ne_nil_of_ne_empty {s : String} (h : s ≠ "") : s.data ≠ [] := by
  intro hd
  exact h (String.ext (by rw [hd]))

/-- C7: when the merged `image` is a non-empty string, `generateMeta` emits
`itemProp:image`, `twitter:image:src` and `og:image`, all carrying the
resolved URL — the image verbatim when it starts with `"http"`, otherwise
`options.baseUrl` with a trailing slash stripped, a `"/"` unless the image
starts with one, and the image; with the two concrete resolutions of the
spec (stated for calls without custom metas, which could rewrite the list
afterwards). -/
theorem c7_image_urls (cfgSeo : JObj) (env : Env) (data : JObj) (options : Options)
    (s : String) (hcfg : configMetas cfgSeo = []) (hpage : pageMetas cfgSeo data = [])
    (himg : jget (mergedSeo cfgSeo data) "image" = JVal.str s) (hs : s ≠ "") :
    ([("itemProp", JVal.str "image"),
      ("content", JVal.str (fullImageUrlOf options.baseUrl s))] ∈
        (generateMeta cfgSeo env data options).1 ∧
     [("name", JVal.str "twitter:image:src"),
      ("content", JVal.str (fullImageUrlOf options.baseUrl s))] ∈
        (generateMeta cfgSeo env data options).1 ∧
     [("property", JVal.str "og:image"),
      ("content", JVal.str (fullImageUrlOf options.baseUrl s))] ∈
        (generateMeta cfgSeo env data options).1) ∧
    fullImageUrlOf "http://x.com/" "pic.jpg" = "http://x.com/pic.jpg" ∧
    (∀ b : String, fullImageUrlOf b "http://y.com/pic.jpg" = "http://y.com/pic.jpg") := by
  have hd := isEmpty_eq_false_of_ne_nil (data_ne_nil_of_ne_empty hs)
  refine ⟨⟨?_, ?_, ?_⟩, by decide, ?_⟩
  · refine mem_generateMeta_of_mem_raw _ _ _ _ _ hcfg hpage
      (mem_rawMeta_of_mem_imageBlock _ _ _ _ _ ?_)
    simp [imageBlock, himg, asStr, jsLengthB, hd]
  · refine mem_generateMeta_of_mem_raw _ _ _ _ _ hcfg hpage
      (mem_rawMeta_of_mem_imageBlock _ _ _ _ _ ?_)
    simp [imageBlock, himg, asStr, jsLengthB, hd]
  · refine mem_generateMeta_of_mem_raw _ _ _ _ _ hcfg hpage
      (mem_rawMeta_of_mem_imageBlock _ _ _ _ _ ?_)
    simp [imageBlock, himg, asStr, jsLengthB, hd]
  · intro b
    simp only [fullImageUrlOf]
    rw [if_pos (show startsWithS "http://y.com/pic.jpg" "http" = true by decide)]

/-- C7 witness. -/
theorem c7_image_urls_witness :
    configMetas [] = [] ∧ pageMetas [] [("image", JVal.str "pic.jpg")] = [] ∧
    jget (mergedSeo [] [("image", JVal.str "pic.jpg")]) "image" = JVal.str "pic.jpg" ∧
    ("pic.jpg" : String) ≠ "" ∧
    [("property", JVal.str "og:image"), ("content", JVal.str "http://x.com/pic.jpg")] ∈
      (generateMeta [] ⟨false, ""⟩ [("image", JVal.str "pic.jpg")] ⟨"http://x.com/", ""⟩).1 :=
  ⟨by decide, by decide, by decide, by decide, by
    have h := ((c7_image_urls [] ⟨false, ""⟩ [("image", JVal.str "pic.jpg")]
      ⟨"http://x.com/", ""⟩ "pic.jpg" (by decide) (by decide) (by decide) (by decide)).1).2.2
    have he : fullImageUrlOf "http://x.com/" "pic.jpg" = "http://x.com/pic.jpg" := by decide
    rw [he] at h
    exact h⟩

/-- C8: the `type_details` loop walks entries in mapping order, recursing one
level into mapping-valued entries; each non-empty leaf emits the
`{type}:{key}[:{subKey}]` / `twitter:dataN` / `twitter:labelN` triple with a
single 1-based counter shared across top-level and nested entries — one
scalar leaf followed by one nested leaf yields `twitter:data`/`label` numbers
`n` and `n + 1`; concretely, inside `generateMeta`, `twitter:data1`/`label1`
and `twitter:data2`/`label2`. -/
theorem c8_type_details_counter :
    (∀ (ty k1 k2 sk v1 v2 : String) (n : Nat), v1 ≠ "" → v2 ≠ "" →
      typeDetailsMeta ty [(k1, .str v1), (k2, .obj [(sk, .str v2)])] n =
        ([[("property", .str (ty ++ ":" ++ k1)), ("content", .str v1)],
          [("name", .str ("twitter:data" ++ Nat.repr n)), ("content", .str v1)],
          [("name", .str ("twitter:label" ++ Nat.repr n)), ("content", .str k1)],
          [("property", .str (ty ++ ":" ++ k2 ++ ":" ++ sk)), ("content", .str v2)],
          [("name", .str ("twitter:data" ++ Nat.repr (n + 1))), ("content", .str v2)],
          [("name", .str ("twitter:label" ++ Nat.repr (n + 1))), ("content", .str sk)]],
         n + 2)) ∧
    [("name", JVal.str "twitter:data1"), ("content", JVal.str "42")] ∈
      (generateMeta [] ⟨false, ""⟩
        [("type_details", JVal.obj [("a", JVal.str "42"), ("b", JVal.obj [("c", JVal.str "7")])])]
        ⟨"", ""⟩).1 ∧
    [("name", JVal.str "twitter:label1"), ("content", JVal.str "a")] ∈
      (generateMeta [] ⟨false, ""⟩
        [("type_details", JVal.obj [("a", JVal.str "42"), ("b", JVal.obj [("c", JVal.str "7")])])]
        ⟨"", ""⟩).1 ∧
    [("name", JVal.str "twitter:data2"), ("content", JVal.str "7")] ∈
      (generateMeta [] ⟨false, ""⟩
        [("type_details", JVal.obj [("a", JVal.str "42"), ("b", JVal.obj [("c", JVal.str "7")])])]
        ⟨"", ""⟩).1 ∧
    [("name", JVal.str "twitter:label2"), ("content", JVal.str "c")] ∈
      (generateMeta [] ⟨false, ""⟩
        [("type_details", JVal.obj [("a", JVal.str "42"), ("b", JVal.obj [("c", JVal.str "7")])])]
        ⟨"", ""⟩).1 := by
  refine ⟨?_, by decide, by decide, by decide, by decide⟩
  intro ty k1 k2 sk v1 v2 n h1 h2
  have he1 : jsIsEmpty (JVal.str v1) = false :=
    isEmpty_eq_false_of_ne_nil (data_ne_nil_of_ne_empty h1)
  have he2 : jsIsEmpty (JVal.str v2) = false :=
    isEmpty_eq_false_of_ne_nil (data_ne_nil_of_ne_empty h2)
  simp [typeDetailsMeta, typeSubMeta, entriesOf, jsIsObject, he1, he2]

/-- C8 witness. -/
theorem c8_type_details_counter_witness :
    ("x" : String) ≠ "" ∧ ("y" : String) ≠ "" ∧
    typeDetailsMeta "og" [("s", JVal.str "x"), ("t", JVal.obj [("u", JVal.str "y")])] 1 =
      ([[("property", JVal.str "og:s"), ("content", JVal.str "x")],
        [("name", JVal.str "twitter:data1"), ("content", JVal.str "x")],
        [("name", JVal.str "twitter:label1"), ("content", JVal.str "s")],
        [("property", JVal.str "og:t:u"), ("content", JVal.str "y")],
        [("name", JVal.str "twitter:data2"), ("content", JVal.str "y")],
        [("name", JVal.str "twitter:label2"), ("content", JVal.str "u")]], 3) :=
  ⟨by decide, by decide,
   (c8_type_details_counter.1 "og" "s" "t" "u" "x" "y" 1 (by decide) (by decide)).trans
     (by decide)⟩

theorem jsTruthy_ne_undef {v : JVal} (h : jsTruthy v = true) : v ≠ .undefined := by
  intro hv
  rw [hv] at h
  exact Bool.false_ne_true h

theorem jKeyPresent_true_of_jget_ne (o : JObj) (k : String) (h : jget o k ≠ .undefined) :
    jKeyPresent o k = true := by
  by_contra hc
  exact h (jget_eq_undef_of_not_mem o k
    ((jKeyPresent_eq_false_iff o k).mp (by simpa using hc)))

theorem getMetaKey_some_spec (m : JObj) (k : String) (h : getMetaKey m = some k) :
    jsTruthy (jget m k) = true ∧ (k = "name" ∨ k = "itemProp" ∨ k = "property") := by
  simp only [getMetaKey, metaKeys, List.foldl] at h
  cases h1 : jsTruthy (jget m "name") <;> cases h2 : jsTruthy (jget m "itemProp") <;>
    cases h3 : jsTruthy (jget m "property") <;> simp [h1, h2, h3] at h <;>
    (subst h; simp [h1, h2, h3])

theorem exactlyOneKey_iff (d : JObj) : exactlyOneKey d = true ↔
    ((jget d "name" ≠ .undefined ∧ jget d "itemProp" = .undefined ∧ jget d "property" = .undefined) ∨
     (jget d "name" = .undefined ∧ jget d "itemProp" ≠ .undefined ∧ jget d "property" = .undefined) ∨
     (jget d "name" = .undefined ∧ jget d "itemProp" = .undefined ∧ jget d "property" ≠ .undefined)) := by
  by_cases h1 : jget d "name" = JVal.undefined <;> by_cases h2 : jget d "itemProp" = JVal.undefined <;>
    by_cases h3 : jget d "property" = JVal.undefined <;>
    simp [exactlyOneKey, metaKeys, h1, h2, h3]

theorem exactlyOneKey_name (s : String) (c : JVal) :
    exactlyOneKey [("name", JVal.str s), ("content", c)] = true :=
  (exactlyOneKey_iff _).mpr (Or.inl ⟨by simp [jget], by simp [jget], by simp [jget]⟩)

theorem exactlyOneKey_itemProp (s : String) (c : JVal) :
    exactlyOneKey [("itemProp", JVal.str s), ("content", c)] = true :=
  (exactlyOneKey_iff _).mpr (Or.inr (Or.inl ⟨by simp [jget], by simp [jget], by simp [jget]⟩))

theorem exactlyOneKey_property (s : String) (c : JVal) :
    exactlyOneKey [("property", JVal.str s), ("content", c)] = true :=
  (exactlyOneKey_iff _).mpr (Or.inr (Or.inr ⟨by simp [jget], by simp [jget], by simp [jget]⟩))

theorem eq_of_mem_ite_singleton {c : Prop} [Decidable c] {e d : JObj}
    (h : d ∈ (if c then [e] else [])) : d = e := by
  split at h
  · exact List.mem_singleton.mp h
  · exact absurd h (List.not_mem_nil d)

theorem mem_ite_triple {c : Prop} [Decidable c] {e1 e2 e3 d : JObj}
    (h : d ∈ (if c then [e1, e2, e3] else [])) : d = e1 ∨ d = e2 ∨ d = e3 := by
  split at h
  · simpa using h
  · exact absurd h (List.not_mem_nil d)

theorem titleBlock_keys (x : JObj) : ∀ d ∈ titleBlock x, exactlyOneKey d = true := by
  intro d hd
  simp only [titleBlock, List.mem_cons, List.not_mem_nil, or_false] at hd
  rcases hd with rfl | rfl | rfl
  · exact exactlyOneKey_name _ _
  · exact exactlyOneKey_name _ _
  · exact exactlyOneKey_property _ _

theorem keywordsBlock_keys (x : JObj) : ∀ d ∈ keywordsBlock x, exactlyOneKey d = true := by
  intro d hd
  simp only [keywordsBlock] at hd
  rcases List.mem_append.mp hd with h | h
  · cases hkw : jget x "keywords" <;> rw [hkw] at h
    · exact absurd h (List.not_mem_nil d)
    · rw [eq_of_mem_ite_singleton h]
      exact exactlyOneKey_name _ _
    · exact absurd h (List.not_mem_nil d)
    · exact absurd h (List.not_mem_nil d)
  · cases hkw : jget x "keywords" <;> rw [hkw] at h
    · exact absurd h (List.not_mem_nil d)
    · exact absurd h (List.not_mem_nil d)
    · rw [eq_of_mem_ite_singleton h]
      exact exactlyOneKey_name _ _
    · exact absurd h (List.not_mem_nil d)

theorem twitterSiteBlock_keys (x : JObj) : ∀ d ∈ twitterSiteBlock x, exactlyOneKey d = true := by
  intro d hd
  simp only [twitterSiteBlock] at hd
  rw [eq_of_mem_ite_singleton hd]
  exact exactlyOneKey_name _ _

theorem twitterCreatorBlock_keys (x : JObj) :
    ∀ d ∈ twitterCreatorBlock x, exactlyOneKey d = true := by
  intro d hd
  simp only [twitterCreatorBlock] at hd
  rw [eq_of_mem_ite_singleton hd]
  exact exactlyOneKey_name _ _

theorem fbAdminsBlock_keys (x : JObj) : ∀ d ∈ fbAdminsBlock x, exactlyOneKey d = true := by
  intro d hd
  simp only [fbAdminsBlock] at hd
  cases hfb : jsGetPath x "facebook.admins" <;> rw [hfb] at hd
  · exact absurd hd (List.not_mem_nil d)
  · exact absurd hd (List.not_mem_nil d)
  · rw [eq_of_mem_ite_singleton hd]
    exact exactlyOneKey_property _ _
  · exact absurd hd (List.not_mem_nil d)

theorem descBlock_keys (x : JObj) : ∀ d ∈ descBlock x, exactlyOneKey d = true := by
  intro d hd
  simp only [descBlock, List.mem_cons, List.not_mem_nil, or_false] at hd
  rcases hd with rfl | rfl | rfl
  · exact exactlyOneKey_name _ _
  · exact exactlyOneKey_name _ _
  · exact exactlyOneKey_property _ _

theorem siteNameBlock_keys (x : JObj) : ∀ d ∈ siteNameBlock x, exactlyOneKey d = true := by
  intro d hd
  simp only [siteNameBlock] at hd
  rw [eq_of_mem_ite_singleton hd]
  exact exactlyOneKey_property _ _

theorem imageBlock_keys (x : JObj) (b : String) : ∀ d ∈ imageBlock x b, exactlyOneKey d = true := by
  intro d hd
  simp only [imageBlock] at hd
  rcases mem_ite_triple hd with rfl | rfl | rfl
  · exact exactlyOneKey_itemProp _ _
  · exact exactlyOneKey_name _ _
  · exact exactlyOneKey_property _ _

theorem cardBlock_keys (x : JObj) : ∀ d ∈ cardBlock x, exactlyOneKey d = true := by
  intro d hd
  simp only [cardBlock, List.mem_cons, List.not_mem_nil, or_false] at hd
  rw [hd]
  exact exactlyOneKey_name _ _

theorem typeBlock_keys (x : JObj) : ∀ d ∈ typeBlock x, exactlyOneKey d = true := by
  intro d hd
  simp only [typeBlock, List.mem_cons, List.not_mem_nil, or_false] at hd
  rw [hd]
  exact exactlyOneKey_property _ _

theorem typeSubMeta_keys (ty key : String) (entries : List (String × JVal)) :
    ∀ (n : Nat), ∀ d ∈ (typeSubMeta ty key entries n).1, exactlyOneKey d = true := by
  induction entries with
  | nil => intro n d hd; simp [typeSubMeta] at hd
  | cons e rest ih =>
    intro n d hd
    obtain ⟨sk, sv⟩ := e
    cases hemp : jsIsEmpty sv with
    | true =>
      rw [show typeSubMeta ty key ((sk, sv) :: rest) n = typeSubMeta ty key rest n from by
        simp only [typeSubMeta, if_pos hemp]] at hd
      exact ih n d hd
    | false =>
      simp only [typeSubMeta] at hd
      rw [if_neg (by simp [hemp])] at hd
      rcases List.mem_append.mp hd with h | h
      · simp only [List.mem_cons, List.not_mem_nil, or_false] at h
        rcases h with rfl | rfl | rfl
        · exact exactlyOneKey_property _ _
        · exact exactlyOneKey_name _ _
        · exact exactlyOneKey_name _ _
      · exact ih (n + 1) d h

theorem typeDetailsMeta_keys (ty : String) (entries : List (String × JVal)) :
    ∀ (n : Nat), ∀ d ∈ (typeDetailsMeta ty entries n).1, exactlyOneKey d = true := by
  induction entries with
  | nil => intro n d hd; simp [typeDetailsMeta] at hd
  | cons e rest ih =>
    intro n d hd
    obtain ⟨key, value⟩ := e
    cases hobj : jsIsObject value with
    | true =>
      simp only [typeDetailsMeta] at hd
      rw [if_pos hobj] at hd
      rcases List.mem_append.mp hd with h | h
      · exact typeSubMeta_keys ty key (entriesOf value) n d h
      · exact ih _ d h
    | false =>
      cases hemp : jsIsEmpty value with
      | true =>
        rw [show typeDetailsMeta ty ((key, value) :: rest) n = typeDetailsMeta ty rest n from by
          simp only [typeDetailsMeta]
          rw [if_neg (by simp [hobj]), if_pos hemp]] at hd
        exact ih n d hd
      | false =>
        simp only [typeDetailsMeta] at hd
        rw [if_neg (by simp [hobj]), if_neg (by simp [hemp])] at hd
        rcases List.mem_append.mp hd with h | h
        · simp only [List.mem_cons, List.not_mem_nil, or_false] at h
          rcases h with rfl | rfl | rfl
          · exact exactlyOneKey_property _ _
          · exact exactlyOneKey_name _ _
          · exact exactlyOneKey_name _ _
        · exact ih (n + 1) d h

theorem typeDetailsBlock_keys (x : JObj) : ∀ d ∈ typeDetailsBlock x, exactlyOneKey d = true := by
  intro d hd
  simp only [typeDetailsBlock] at hd
  exact typeDetailsMeta_keys _ _ 1 d hd

theorem urlBlock_keys (x : JObj) (options : Options) (env : Env) :
    ∀ d ∈ urlBlock x options env, exactlyOneKey d = true := by
  intro d hd
  simp only [urlBlock] at hd
  rw [eq_of_mem_ite_singleton hd]
  exact exactlyOneKey_property _ _

theorem rawMeta_keys (cfgSeo : JObj) (env : Env) (data : JObj) (options : Options) :
    ∀ d ∈ rawMeta cfgSeo env data options, exactlyOneKey d = true := by
  intro d hd
  simp only [rawMeta, List.mem_append] at hd
  rcases hd with
    ((((((((((h | h) | h) | h) | h) | h) | h) | h) | h) | h) | h) | h
  · exact titleBlock_keys _ d h
  · exact keywordsBlock_keys _ d h
  · exact twitterSiteBlock_keys _ d h
  · exact twitterCreatorBlock_keys _ d h
  · exact fbAdminsBlock_keys _ d h
  · exact descBlock_keys _ d h
  · exact siteNameBlock_keys _ d h
  · exact imageBlock_keys _ _ d h
  · exact cardBlock_keys _ d h
  · exact typeBlock_keys _ d h
  · exact typeDetailsBlock_keys _ d h
  · exact urlBlock_keys _ _ _ d h

theorem mem_keys_of_jKeyPresent {o : JObj} {k : String} (h : jKeyPresent o k = true) :
    k ∈ o.map Prod.fst := by
  by_contra hc
  rw [(jKeyPresent_eq_false_iff o k).mpr hc] at h
  simp at h

theorem jget_updateFields (m : JObj) : ∀ (d : JObj) (p : String),
    m.all (fun kv => !containsDot kv.1) = true → (m.map Prod.fst).Nodup →
    jget (updateFields d m) p = if jKeyPresent m p then jget m p else jget d p := by
  induction m with
  | nil =>
    intro d p _ _
    simp [updateFields, jKeyPresent]
  | cons kv m' ih =>
    intro d p hplain hnd
    obtain ⟨k0, v0⟩ := kv
    rw [List.all_cons, Bool.and_eq_true] at hplain
    have hk0dot : containsDot k0 = false := by
      have h := hplain.1
      simpa using h
    have hplain' := hplain.2
    rw [List.map_cons, List.nodup_cons] at hnd
    have hstep : updateFields d ((k0, v0) :: m') = updateFields (jsSet d k0 v0) m' := by
      simp only [updateFields, List.foldl_cons]
    have hset : jsSet d k0 v0 = setKey d k0 v0 := by
      rw [jsSet, if_pos]
      simp [hk0dot]
    rw [hstep, hset, ih _ p hplain' hnd.2]
    by_cases hp' : jKeyPresent m' p
    · rw [if_pos hp']
      have hk0p : ¬(k0 = p) := fun he => hnd.1 (he ▸ mem_keys_of_jKeyPresent hp')
      simp [jKeyPresent, jget, hk0p, hp']
    · rw [if_neg hp']
      by_cases hkp : k0 = p
      · subst hkp
        rw [jget_setKey_same]
        simp [jKeyPresent, jget]
      · rw [jget_setKey_other _ _ _ _ hkp]
        simp [jKeyPresent, jget, hkp, hp']

theorem exactlyOneKey_updateFields (d m : JObj) (k : String)
    (hd : exactlyOneKey d = true) (hm : exactlyOneKey m = true)
    (hplain : m.all (fun kv => !containsDot kv.1) = true) (hnd : (m.map Prod.fst).Nodup)
    (hk : getMetaKey m = some k) (hmatch : jget d k = jget m k) :
    exactlyOneKey (updateFields d m) = true := by
  obtain ⟨htr, hkid⟩ := getMetaKey_some_spec m k hk
  have hmk : jget m k ≠ .undefined := jsTruthy_ne_undef htr
  have hdk : jget d k ≠ .undefined := by rw [hmatch]; exact hmk
  have hup : ∀ p, jget (updateFields d m) p = if jKeyPresent m p then jget m p else jget d p :=
    fun p => jget_updateFields m d p hplain hnd
  have hpres : jKeyPresent m k = true := jKeyPresent_true_of_jget_ne m k hmk
  have hupk : jget (updateFields d m) k = jget m k := by rw [hup k, if_pos hpres]
  have hother : ∀ p, (p = "name" ∨ p = "itemProp" ∨ p = "property") → p ≠ k →
      jget (updateFields d m) p = .undefined := by
    intro p hpid hpk
    have hmp : jget m p = .undefined := by
      rcases (exactlyOneKey_iff m).mp hm with ⟨h1, h2, h3⟩ | ⟨h1, h2, h3⟩ | ⟨h1, h2, h3⟩ <;>
        rcases hkid with rfl | rfl | rfl <;> rcases hpid with rfl | rfl | rfl <;>
        simp_all
    have hdp : jget d p = .undefined := by
      rcases (exactlyOneKey_iff d).mp hd with ⟨h1, h2, h3⟩ | ⟨h1, h2, h3⟩ | ⟨h1, h2, h3⟩ <;>
        rcases hkid with rfl | rfl | rfl <;> rcases hpid with rfl | rfl | rfl <;>
        simp_all
    rw [hup p]
    by_cases hq : jKeyPresent m p
    · rw [if_pos hq]
      exact hmp
    · rw [if_neg hq]
      exact hdp
  rw [exactlyOneKey_iff]
  rcases hkid with rfl | rfl | rfl
  · exact Or.inl ⟨by rw [hupk]; exact hmk,
      hother "itemProp" (by simp) (by decide), hother "property" (by simp) (by decide)⟩
  · exact Or.inr (Or.inl ⟨hother "name" (by simp) (by decide),
      by rw [hupk]; exact hmk, hother "property" (by simp) (by decide)⟩)
  · exact Or.inr (Or.inr ⟨hother "name" (by simp) (by decide),
      hother "itemProp" (by simp) (by decide), by rw [hupk]; exact hmk⟩)

theorem mem_findAndUpdate (k : String) (m : JObj) : ∀ (s l' : List JObj),
    findAndUpdate k m s = some l' → ∀ x ∈ l',
    x ∈ s ∨ ∃ d ∈ s, jget d k = jget m k ∧ x = updateFields d m := by
  intro s
  induction s with
  | nil => intro l' h; cases h
  | cons d rest ih =>
    intro l' h x hx
    by_cases hd : jget d k = jget m k
    · rw [findAndUpdate, if_pos hd] at h
      injection h with h
      subst h
      rcases List.mem_cons.mp hx with rfl | hxr
      · exact Or.inr ⟨d, List.mem_cons_self _ _, hd, rfl⟩
      · exact Or.inl (List.mem_cons_of_mem _ hxr)
    · rw [findAndUpdate, if_neg hd] at h
      cases hrec : findAndUpdate k m rest with
      | none =>
        rw [hrec] at h
        cases h
      | some l'' =>
        rw [hrec] at h
        injection h with h
        subst h
        rcases List.mem_cons.mp hx with rfl | hxr
        · exact Or.inl (List.mem_cons_self _ _)
        · rcases ih l'' hrec x hxr with hin | ⟨d', hd', hm', he'⟩
          · exact Or.inl (List.mem_cons_of_mem _ hin)
          · exact Or.inr ⟨d', List.mem_cons_of_mem _ hd', hm', he'⟩

theorem applyMeta_keys (s : List JObj) (m : JObj)
    (hs : ∀ d ∈ s, exactlyOneKey d = true) (hm : goodMeta m) :
    ∀ d ∈ applyMeta s m, exactlyOneKey d = true := by
  intro d hd
  cases hk : getMetaKey m with
  | none =>
    simp only [applyMeta, hk] at hd
    rcases List.mem_append.mp hd with h | h
    · exact hs d h
    · rw [List.mem_singleton.mp h]
      exact hm.1
  | some k =>
    simp only [applyMeta, hk] at hd
    cases hfind : findAndUpdate k m s with
    | none =>
      simp only [hfind] at hd
      rcases List.mem_append.mp hd with h | h
      · exact hs d h
      · rw [List.mem_singleton.mp h]
        exact hm.1
    | some l' =>
      simp only [hfind] at hd
      rcases mem_findAndUpdate k m s l' hfind d hd with h | ⟨d', hd', hm', he'⟩
      · exact hs d h
      · rw [he']
        exact exactlyOneKey_updateFields d' m k (hs d' hd') hm.1 hm.2.1 hm.2.2 hk hm'

theorem addUpdateMeta_keys (ms : List JObj) : ∀ (s : List JObj),
    (∀ d ∈ s, exactlyOneKey d = true) → (∀ m ∈ ms, goodMeta m) →
    ∀ d ∈ addUpdateMeta s ms, exactlyOneKey d = true := by
  induction ms with
  | nil => intro s hs _ d hd; exact hs d hd
  | cons m rest ih =>
    intro s hs hms d hd
    have hstep : addUpdateMeta s (m :: rest) = addUpdateMeta (applyMeta s m) rest := by
      simp only [addUpdateMeta, List.foldl_cons]
    rw [hstep] at hd
    exact ih _ (applyMeta_keys s m hs (hms m (List.mem_cons_self _ _)))
      (fun m' hm' => hms m' (List.mem_cons_of_mem _ hm')) d hd

/-- C1 counterexample: a custom meta entry without any identifying key (the
spec's own `{custom: "x"}` example) reaches the returned list unchanged, so
not every returned descriptor has exactly one of `name`, `itemProp`,
`property`. -/
theorem c1_counterexample :
    ¬ (∀ d ∈ (generateMeta [] ⟨false, ""⟩
        [("meta", JVal.arr [JVal.obj [("custom", JVal.str "x")]])] ⟨"", ""⟩).1,
      exactlyOneKey d = true) := by decide

/-- C1 (amended): every descriptor generated by the module itself has exactly
one identifying key, and the invariant extends to the returned list whenever
every config-level and page-level custom meta entry is a well-formed object
(no duplicate field names, no dotted field names) that itself has exactly one
identifying key; an arbitrary custom meta entry can break it. -/
theorem c1_exactly_one_key (cfgSeo : JObj) (env : Env) (data : JObj) (options : Options)
    (hcfg : ∀ m ∈ configMetas cfgSeo, goodMeta m)
    (hpage : ∀ m ∈ pageMetas cfgSeo data, goodMeta m) :
    ∀ d ∈ (generateMeta cfgSeo env data options).1, exactlyOneKey d = true := by
  intro d hd
  have h1 : (generateMeta cfgSeo env data options).1 =
      uniqWith (fullMeta cfgSeo env data options) := by
    simp only [generateMeta]
  rw [h1, uniqWith_eq_uniqFold] at hd
  have hd2 : d ∈ fullMeta cfgSeo env data options := by
    rcases (mem_uniqFold _ _ _).mp hd with h | h
    · exact absurd h (List.not_mem_nil d)
    · exact h
  rw [fullMeta] at hd2
  exact addUpdateMeta_keys _ _
    (addUpdateMeta_keys _ _ (rawMeta_keys cfgSeo env data options) hcfg) hpage d hd2

/-- C1 witness. -/
theorem c1_exactly_one_key_witness :
    (∀ m ∈ configMetas [], goodMeta m) ∧
    (∀ m ∈ pageMetas []
      [("meta", JVal.arr [JVal.obj [("name", JVal.str "google-site-verification"),
        ("content", JVal.str "tok")]])], goodMeta m) ∧
    ∀ d ∈ (generateMeta [] ⟨false, ""⟩
        [("meta", JVal.arr [JVal.obj [("name", JVal.str "google-site-verification"),
          ("content", JVal.str "tok")]])] ⟨"", ""⟩).1,
      exactlyOneKey d = true :=
  ⟨by decide, by decide,
   c1_exactly_one_key [] ⟨false, ""⟩
     [("meta", JVal.arr [JVal.obj [("name", JVal.str "google-site-verification"),
       ("content", JVal.str "tok")]])] ⟨"", ""⟩ (by decide) (by decide)⟩
